import Mathlib

/-!
Shallow embedding of `src/src/main.rs`: a two-stage resolution algorithm over
sorted integer sequences with a wildcard value.

Rust `i32` is modelled as `Int` (no arithmetic is performed on the values, only
comparisons, so overflow is irrelevant).  A Rust panic (the `unreachable!` in
`Value::assume_number`, or an out-of-bounds index) is modelled as `none`:
every embedded function that can reach a panic returns an `Option`.
-/

/-- The tagged union `enum Value { Number(i32), Any }` from the source. -/
inductive Value where
  | Number : Int → Value
  | Any : Value
deriving DecidableEq

/-- Model of `Value::assume_number`: returns the contained number, panics (`none`) on
`Any`.  (The `Option::unwrap(Some(1))` line in the source is a no-op.) -/
def Value.assume_number : Value → Option Int
  | .Number n => some n
  | .Any => none

/-- The loop of Rust `slice::partition_point` / `binary_search_by`
(`left`/`right` bisection; `mid = left + size / 2` where `size = right - left`;
the predicate standing for the `Less` comparison result).  Out-of-range reads
cannot happen (`mid < right ≤ len` in every reachable call), so `getD` with an
arbitrary default is faithful. -/
def partitionPointAux (xs : List Int) (pred : Int → Bool) (left right : Nat) : Nat :=
  if _h : left < right then
    let mid := left + (right - left) / 2
    if pred (xs.getD mid 0) then partitionPointAux xs pred (mid + 1) right
    else partitionPointAux xs pred left mid
  else left
termination_by right - left
decreasing_by all_goals omega

/-- Rust `available.partition_point(|x| *x < pref)` (with `pred` the closure). -/
def partitionPoint (xs : List Int) (pred : Int → Bool) : Nat :=
  partitionPointAux xs pred 0 xs.length

/-- The merge loop of `filter_allowed`, on the extracted integers: advance the
lesser side, emit on equality.  (`av.cmp(&al) == Greater` is `al < a`.) -/
def mergeInts : List Int → List Int → List Int
  | _, [] => []
  | [], _ :: _ => []
  | a :: as, b :: bs =>
    if b < a then mergeInts (a :: as) bs
    else if a < b then mergeInts as (b :: bs)
    else a :: mergeInts as bs
termination_by x y => x.length + y.length

/-- The merge loop of `filter_allowed` as written: the `allowed` iterator is
`allowed.into_iter().map(|x| x.assume_number()).peekable()`, so peeking the
head of `allowed` extracts it and can panic on `Any` — also in the iteration
that breaks because `available` is exhausted (both peeks are evaluated before
the match).  When `allowed` is exhausted no extraction happens. -/
def mergeWalk : List Int → List Value → Option (List Int)
  | _, [] => some []
  | [], v :: _ => (Value.assume_number v).map (fun _ => [])
  | a :: as, v :: vs =>
    (Value.assume_number v).bind (fun al =>
      if al < a then mergeWalk (a :: as) vs
      else if a < al then mergeWalk as (v :: vs)
      else (mergeWalk as vs).map (fun r => a :: r))
termination_by x y => x.length + y.length

/-- Model of `filter_allowed`: wildcard in `allowed` short-circuits to `available`,
otherwise the merge walk. -/
def filter_allowed (available : List Int) (allowed : List Value) : Option (List Int) :=
  if Value.Any ∈ allowed then some available
  else mergeWalk available allowed

/-- One iteration of the `for pref in preferred` loop of `find_preferred`:
`partition_point`, the conditional decrement, and the guarded push
(`available[index]` modelled by `getElem?`, `none` standing for an
out-of-bounds panic). -/
def selectOne (available : List Int) (pref : Int) : Option (List Int) :=
  let index0 := partitionPoint available (fun x => decide (x < pref))
  let index := if 0 < index0 ∧ available.length = index0 then index0 - 1 else index0
  if available.isEmpty then some []
  else (available[index]?).map (fun v => [v])

/-- The accumulation loop of `find_preferred` (everything before `dedup`):
for each preferred entry in order, extract the number (panicking on `Any`)
and append that entry's contribution. -/
def find_preferred_go (available : List Int) : List Value → Option (List Int)
  | [] => some []
  | p :: ps =>
    (Value.assume_number p).bind (fun pref =>
      (selectOne available pref).bind (fun c =>
        (find_preferred_go available ps).map (fun rest => c ++ rest)))

/-- Model of `Vec::dedup`: collapse runs of consecutive equal elements to one. -/
def dedup : List Int → List Int
  | [] => []
  | [x] => [x]
  | x :: y :: rest => if x = y then dedup (y :: rest) else x :: dedup (y :: rest)

/-- Model of `find_preferred`: wildcard in `preferred` short-circuits to `available`,
otherwise the accumulation loop followed by `dedup`. -/
def find_preferred (available : List Int) (preferred : List Value) : Option (List Int) :=
  if Value.Any ∈ preferred then some available
  else (find_preferred_go available preferred).map dedup

/-- Model of `attempt` (the spec's `resolve`): `find_preferred` after `filter_allowed`. -/
def attempt (available : List Int) (allowed preferred : List Value) : Option (List Int) :=
  (filter_allowed available allowed).bind (fun fa => find_preferred fa preferred)

/-- Fuel-instrumented merge walk: each loop iteration costs one unit of fuel,
`none` on exhaustion.  Used to state that the loop terminates within
`|available| + |allowed|` iterations. -/
def mergeWalkFuel : Nat → List Int → List Value → Option (List Int)
  | 0, _, _ => none
  | _ + 1, _, [] => some []
  | _ + 1, [], v :: _ => (Value.assume_number v).map (fun _ => [])
  | fuel + 1, a :: as, v :: vs =>
    (Value.assume_number v).bind (fun al =>
      if al < a then mergeWalkFuel fuel (a :: as) vs
      else if a < al then mergeWalkFuel fuel as (v :: vs)
      else (mergeWalkFuel fuel as vs).map (fun r => a :: r))

/-- Fuel-instrumented accumulation loop of `find_preferred`: one unit of fuel
per preferred entry. -/
def findPreferredFuel : Nat → List Int → List Value → Option (List Int)
  | 0, _, _ => none
  | _ + 1, _, [] => some []
  | fuel + 1, av, p :: ps =>
    (Value.assume_number p).bind (fun pref =>
      (selectOne av pref).bind (fun c =>
        (findPreferredFuel fuel av ps).map (fun rest => c ++ rest)))

/-- What one preferred entry `p` must contribute (spec, §4.2 selection
policy): the smallest available value `≥ p` when one exists; otherwise, when
`available` is non-empty, its largest value; nothing when `available` is
empty. -/
def SelectsNearest (available : List Int) (p : Int) (out : List Int) : Prop :=
  (∃ c, out = [c] ∧ c ∈ available ∧ p ≤ c ∧ ∀ y ∈ available, p ≤ y → c ≤ y) ∨
  ((∀ y ∈ available, y < p) ∧ available ≠ [] ∧
    ∃ c, out = [c] ∧ c ∈ available ∧ ∀ y ∈ available, y ≤ c) ∨
  (available = [] ∧ out = [])


/-! ### Basic lemmas about the binary search (`partition_point`) -/

theorem ppAux_range (xs : List Int) (pred : Int → Bool) :
    ∀ n left right, right - left ≤ n → left ≤ right →
      left ≤ partitionPointAux xs pred left right ∧
      partitionPointAux xs pred left right ≤ right := by
  intro n
  induction n with
  | zero =>
    intro left right h1 h2
    rw [partitionPointAux, dif_neg (by omega)]
    omega
  | succ n ih =>
    intro left right h1 h2
    rw [partitionPointAux]
    split
    · next h =>
      dsimp only
      split
      · have := ih (left + (right - left) / 2 + 1) right (by omega) (by omega)
        omega
      · have := ih left (left + (right - left) / 2) (by omega) (by omega)
        omega
    · omega

theorem partitionPoint_le_length (xs : List Int) (pred : Int → Bool) :
    partitionPoint xs pred ≤ xs.length :=
  (ppAux_range xs pred xs.length 0 xs.length (by omega) (by omega)).2

theorem ppAux_inv (xs : List Int) (pred : Int → Bool)
    (hmono : ∀ i j, i ≤ j → j < xs.length →
      pred (xs.getD j 0) = true → pred (xs.getD i 0) = true) :
    ∀ n left right, right - left ≤ n → left ≤ right → right ≤ xs.length →
    (∀ i, i < left → pred (xs.getD i 0) = true) →
    (∀ i, right ≤ i → i < xs.length → pred (xs.getD i 0) = false) →
    (∀ i, i < partitionPointAux xs pred left right → pred (xs.getD i 0) = true) ∧
    (∀ i, partitionPointAux xs pred left right ≤ i → i < xs.length →
      pred (xs.getD i 0) = false) := by
  intro n
  induction n with
  | zero =>
    intro left right h1 h2 h3 hlo hhi
    rw [partitionPointAux, dif_neg (by omega)]
    exact ⟨hlo, fun i hi => hhi i (by omega)⟩
  | succ n ih =>
    intro left right h1 h2 h3 hlo hhi
    rw [partitionPointAux]
    split
    · next h =>
      dsimp only
      split
      · next hp =>
        refine ih (left + (right - left) / 2 + 1) right (by omega) (by omega) h3 ?_ hhi
        intro i hi
        rcases Nat.lt_or_ge i left with hc | hc
        · exact hlo i hc
        · exact hmono i (left + (right - left) / 2) (by omega) (by omega) hp
      · next hp =>
        refine ih left (left + (right - left) / 2) (by omega) (by omega) (by omega) hlo ?_
        intro i hi hi'
        cases hq : pred (xs.getD i 0) with
        | false => rfl
        | true =>
          exact absurd (hmono (left + (right - left) / 2) i (by omega) hi' hq) hp
    · exact ⟨hlo, fun i hi => hhi i (by omega)⟩

/-- On a sorted list, `partition_point (· < p)` marks the boundary: everything
before it is `< p`, everything from it on is `≥ p`. -/
theorem partitionPoint_spec (xs : List Int) (p : Int) (hs : xs.Pairwise (· ≤ ·)) :
    (∀ i, i < partitionPoint xs (fun x => decide (x < p)) → xs.getD i 0 < p) ∧
    (∀ i, partitionPoint xs (fun x => decide (x < p)) ≤ i → i < xs.length →
      p ≤ xs.getD i 0) := by
  have hmono : ∀ i j, i ≤ j → j < xs.length →
      (decide (xs.getD j 0 < p)) = true → (decide (xs.getD i 0 < p)) = true := by
    intro i j hij hj hd
    rw [decide_eq_true_eq] at hd ⊢
    rcases Nat.lt_or_ge i j with hc | hc
    · have hle : xs.getD i 0 ≤ xs.getD j 0 := by
        rw [List.getD_eq_getElem xs 0 (by omega), List.getD_eq_getElem xs 0 hj]
        exact List.pairwise_iff_getElem.mp hs i j (by omega) hj hc
      omega
    · have : i = j := by omega
      subst this; exact hd
  have h := ppAux_inv xs (fun x => decide (x < p)) hmono xs.length 0 xs.length
    (by omega) (by omega) (by omega) (by omega) (by intro i h1 h2; omega)
  constructor
  · intro i hi
    have := h.1 i hi
    simpa using this
  · intro i hi hi'
    have := h.2 i hi hi'
    simp only [decide_eq_true_eq] at this
    simp only [decide_eq_false_iff_not] at this
    omega

/-! ### Lemmas about the merge walk of `filter_allowed` -/

theorem not_any_exists_map {l : List Value} (h : Value.Any ∉ l) :
    ∃ ns : List Int, l = ns.map Value.Number := by
  induction l with
  | nil => exact ⟨[], rfl⟩
  | cons v t ih =>
    cases v with
    | Any => exact absurd (List.mem_cons_self _ _) h
    | Number n =>
      obtain ⟨ns, hns⟩ := ih (fun hm => h (List.mem_cons_of_mem _ hm))
      exact ⟨n :: ns, by simp [hns]⟩

theorem mergeInts_sublist : ∀ a b : List Int, (mergeInts a b).Sublist a := by
  intro a b
  induction a, b using mergeInts.induct with
  | case1 a => rw [mergeInts]; exact List.nil_sublist a
  | case2 b bs => rw [mergeInts]
  | case3 a as b bs h ih => rw [mergeInts, if_pos h]; exact ih
  | case4 a as b bs h h' ih => rw [mergeInts, if_neg h, if_pos h']; exact ih.cons a
  | case5 a as b bs h h' ih => rw [mergeInts, if_neg h, if_neg h']; exact ih.cons₂ a

/-- On sorted inputs the merge emits each value `min` of its two
multiplicities many times. -/
theorem mergeInts_count : ∀ a b : List Int, a.Pairwise (· ≤ ·) → b.Pairwise (· ≤ ·) →
    ∀ v : Int, (mergeInts a b).count v = min (a.count v) (b.count v) := by
  intro a b
  induction a, b using mergeInts.induct with
  | case1 a => intro _ _ v; rw [mergeInts]; simp
  | case2 b bs => intro _ _ v; rw [mergeInts]; simp
  | case3 a as b bs h ih =>
    intro ha hb v
    rw [mergeInts, if_pos h, ih ha (List.Pairwise.of_cons hb) v]
    by_cases hv : v = b
    · subst hv
      have hz : v ∉ a :: as := by
        intro hm
        rcases List.mem_cons.mp hm with rfl | hm
        · omega
        · have := (List.pairwise_cons.mp ha).1 v hm
          omega
      rw [List.count_eq_zero.mpr hz]
      simp
    · rw [List.count_cons_of_ne hv]
  | case4 a as b bs h h' ih =>
    intro ha hb v
    rw [mergeInts, if_neg h, if_pos h', ih (List.Pairwise.of_cons ha) hb v]
    by_cases hv : v = a
    · subst hv
      have hz : v ∉ b :: bs := by
        intro hm
        rcases List.mem_cons.mp hm with rfl | hm
        · omega
        · have := (List.pairwise_cons.mp hb).1 v hm
          omega
      rw [List.count_eq_zero.mpr hz]
      simp
    · rw [List.count_cons_of_ne hv]
  | case5 a as b bs h h' ih =>
    intro ha hb v
    have hab : a = b := by omega
    subst hab
    rw [mergeInts, if_neg h, if_neg h']
    by_cases hv : v = a
    · subst hv
      rw [List.count_cons_self, List.count_cons_self, List.count_cons_self,
        ih (List.Pairwise.of_cons ha) (List.Pairwise.of_cons hb) v]
      omega
    · rw [List.count_cons_of_ne hv, List.count_cons_of_ne hv, List.count_cons_of_ne hv,
        ih (List.Pairwise.of_cons ha) (List.Pairwise.of_cons hb) v]

theorem mergeWalk_map_number : ∀ (a ns : List Int),
    mergeWalk a (ns.map Value.Number) = some (mergeInts a ns) := by
  intro a ns
  induction a, ns using mergeInts.induct with
  | case1 a => rw [mergeInts]; cases a <;> simp [mergeWalk]
  | case2 b bs => simp [mergeWalk, mergeInts, Value.assume_number]
  | case3 a as b bs h ih =>
    rw [List.map_cons, mergeWalk, mergeInts, if_pos h]
    simp only [Value.assume_number]
    rw [Option.some_bind, if_pos h]
    exact ih
  | case4 a as b bs h h' ih =>
    rw [List.map_cons, mergeWalk, mergeInts, if_neg h, if_pos h']
    simp only [Value.assume_number]
    rw [Option.some_bind, if_neg h, if_pos h', ← List.map_cons]
    exact ih
  | case5 a as b bs h h' ih =>
    rw [List.map_cons, mergeWalk, mergeInts, if_neg h, if_neg h']
    simp only [Value.assume_number]
    rw [Option.some_bind, if_neg h, if_neg h', ih]
    rfl

theorem mergeWalk_no_any (a : List Int) (al : List Value) (h : Value.Any ∉ al) :
    ∃ ns : List Int, al = ns.map Value.Number ∧ mergeWalk a al = some (mergeInts a ns) := by
  obtain ⟨ns, rfl⟩ := not_any_exists_map h
  exact ⟨ns, rfl, mergeWalk_map_number a ns⟩

/-- The function `filter_allowed` never panics and only ever drops elements. -/
theorem filter_allowed_spec (av : List Int) (al : List Value) :
    ∃ r, filter_allowed av al = some r ∧ List.Sublist r av := by
  unfold filter_allowed
  split
  · exact ⟨av, rfl, List.Sublist.refl av⟩
  · next h =>
    obtain ⟨ns, rfl, hm⟩ := mergeWalk_no_any av _ h
    exact ⟨_, hm, mergeInts_sublist _ _⟩

/-! ### Lemmas about the per-entry selection of `find_preferred` -/

theorem sorted_getElem_mono {av : List Int} (hs : av.Pairwise (· ≤ ·))
    {i j : Nat} (hi : i < av.length) (hj : j < av.length) (hij : i ≤ j) :
    av[i] ≤ av[j] := by
  rcases Nat.lt_or_ge i j with hc | hc
  · exact List.pairwise_iff_getElem.mp hs i j hi hj hc
  · have : i = j := by omega
    subst this
    exact le_refl _

/-- The per-entry selection never panics: the computed index is always in
bounds, and the contribution is empty iff `available` is. -/
theorem selectOne_total (av : List Int) (p : Int) :
    ∃ c, selectOne av p = some c ∧
      ((av = [] ∧ c = []) ∨ ∃ v, c = [v] ∧ v ∈ av) := by
  simp only [selectOne]
  split
  · next he =>
    exact ⟨[], rfl, Or.inl ⟨List.isEmpty_iff.mp he, rfl⟩⟩
  · next he =>
    have hne : av ≠ [] := by
      intro hc
      exact he (by simp [hc])
    have hlen : 0 < av.length := List.length_pos.mpr hne
    have h0 := partitionPoint_le_length av (fun x => decide (x < p))
    have hilt : (if 0 < partitionPoint av (fun x => decide (x < p)) ∧
        av.length = partitionPoint av (fun x => decide (x < p)) then
          partitionPoint av (fun x => decide (x < p)) - 1
        else partitionPoint av (fun x => decide (x < p))) < av.length := by
      split <;> omega
    rw [List.getElem?_eq_getElem hilt]
    exact ⟨_, rfl, Or.inr ⟨_, rfl, List.getElem_mem hilt⟩⟩

/-- On sorted `available` the per-entry selection realises the spec's
selection policy. -/
theorem selectOne_spec (av : List Int) (p : Int) (hs : av.Pairwise (· ≤ ·)) :
    ∃ c, selectOne av p = some c ∧ SelectsNearest av p c := by
  obtain ⟨hpp1, hpp2⟩ := partitionPoint_spec av p hs
  simp only [selectOne]
  split
  · next he =>
    exact ⟨[], rfl, Or.inr (Or.inr ⟨List.isEmpty_iff.mp he, rfl⟩)⟩
  · next he =>
    have hne : av ≠ [] := by
      intro hc
      exact he (by simp [hc])
    have hlen : 0 < av.length := List.length_pos.mpr hne
    have h0 := partitionPoint_le_length av (fun x => decide (x < p))
    split
    · next hcase =>
      -- no available value is ≥ p: fall back to the last element
      have hidx : partitionPoint av (fun x => decide (x < p)) - 1 < av.length := by omega
      rw [List.getElem?_eq_getElem hidx]
      refine ⟨_, rfl, Or.inr (Or.inl ⟨?_, hne, _, rfl, List.getElem_mem hidx, ?_⟩)⟩
      · intro y hy
        obtain ⟨j, hj, rfl⟩ := List.mem_iff_getElem.mp hy
        have := hpp1 j (by omega)
        rwa [List.getD_eq_getElem av 0 hj] at this
      · intro y hy
        obtain ⟨j, hj, rfl⟩ := List.mem_iff_getElem.mp hy
        exact sorted_getElem_mono hs hj hidx (by omega)
    · next hcase =>
      -- `av[partitionPoint]` is the smallest value ≥ p
      have hidx : partitionPoint av (fun x => decide (x < p)) < av.length := by omega
      rw [List.getElem?_eq_getElem hidx]
      refine ⟨_, rfl, Or.inl ⟨_, rfl, List.getElem_mem hidx, ?_, ?_⟩⟩
      · have := hpp2 (partitionPoint av (fun x => decide (x < p))) (le_refl _) hidx
        rwa [List.getD_eq_getElem av 0 hidx] at this
      · intro y hy hpy
        obtain ⟨j, hj, rfl⟩ := List.mem_iff_getElem.mp hy
        rcases Nat.lt_or_ge j (partitionPoint av (fun x => decide (x < p))) with hc | hc
        · have := hpp1 j hc
          rw [List.getD_eq_getElem av 0 hj] at this
          omega
        · exact sorted_getElem_mono hs hidx hj hc

/-- Monotonicity of the selection policy: a larger preference never selects a
smaller value.  Pure consequence of `SelectsNearest`. -/
theorem selectsNearest_mono {av : List Int} {p q : Int} {cp cq : List Int}
    (hp : SelectsNearest av p cp) (hq : SelectsNearest av q cq) (hpq : p ≤ q) :
    ∀ x ∈ cp, ∀ y ∈ cq, x ≤ y := by
  intro x hx y hy
  rcases hp with ⟨c, rfl, hcmem, hpc, hcmin⟩ | ⟨hall, hne, c, rfl, hcmem, hcmax⟩ | ⟨rfl, rfl⟩
  · rcases hq with ⟨d, rfl, hdmem, hqd, hdmin⟩ | ⟨hall', hne', d, rfl, hdmem, hdmax⟩ | ⟨rfl, rfl⟩
    · simp only [List.mem_singleton] at hx hy
      subst hx hy
      exact hcmin _ hdmem (by omega)
    · simp only [List.mem_singleton] at hx hy
      subst hx hy
      exact hdmax _ hcmem
    · simp at hy
  · rcases hq with ⟨d, rfl, hdmem, hqd, hdmin⟩ | ⟨hall', hne', d, rfl, hdmem, hdmax⟩ | ⟨rfl, rfl⟩
    · have := hall _ hdmem
      omega
    · simp only [List.mem_singleton] at hx hy
      subst hx hy
      exact hdmax _ hcmem
    · simp at hy
  · simp at hx

/-! ### Lemmas about the accumulation loop and `dedup` -/

theorem go_map_number (av : List Int) : ∀ ns : List Int,
    find_preferred_go av (ns.map Value.Number) =
      some (ns.flatMap (fun p => (selectOne av p).getD [])) := by
  intro ns
  induction ns with
  | nil => rfl
  | cons n t ih =>
    obtain ⟨c, hc, _⟩ := selectOne_total av n
    simp [find_preferred_go, Value.assume_number, hc, ih]

theorem go_some_of_no_any (av : List Int) (pf : List Value) (h : Value.Any ∉ pf) :
    ∃ ns : List Int, pf = ns.map Value.Number ∧
      find_preferred_go av pf =
        some (ns.flatMap (fun p => (selectOne av p).getD [])) := by
  obtain ⟨ns, rfl⟩ := not_any_exists_map h
  exact ⟨ns, rfl, go_map_number av ns⟩

theorem go_mem (av : List Int) : ∀ (pf : List Value) (acc : List Int),
    find_preferred_go av pf = some acc → ∀ x ∈ acc, x ∈ av := by
  intro pf
  induction pf with
  | nil =>
    intro acc h x hx
    simp only [find_preferred_go, Option.some_inj] at h
    subst h
    simp at hx
  | cons p ps ih =>
    intro acc h x hx
    simp only [find_preferred_go] at h
    cases hp : Value.assume_number p with
    | none => rw [hp] at h; simp at h
    | some pref =>
      rw [hp, Option.some_bind] at h
      obtain ⟨c, hc, hcm⟩ := selectOne_total av pref
      rw [hc, Option.some_bind] at h
      cases hg : find_preferred_go av ps with
      | none => rw [hg] at h; simp at h
      | some rest =>
        rw [hg] at h
        simp only [Option.map_some', Option.some_inj] at h
        subst h
        rcases List.mem_append.mp hx with hx | hx
        · rcases hcm with ⟨_, rfl⟩ | ⟨v, rfl, hv⟩
          · simp at hx
          · simp only [List.mem_singleton] at hx
            subst hx
            exact hv
        · exact ih rest hg x hx

theorem dedup_sublist : ∀ l : List Int, (dedup l).Sublist l := by
  intro l
  induction l using dedup.induct with
  | case1 => exact List.Sublist.refl []
  | case2 x => exact List.Sublist.refl [x]
  | case3 y rest ih => rw [dedup, if_pos rfl]; exact ih.cons y
  | case4 x y rest hne ih => rw [dedup, if_neg hne]; exact ih.cons₂ x

theorem dedup_head : ∀ (l : List Int) (y : Int) (t : List Int), l = y :: t →
    ∃ u, dedup l = y :: u := by
  intro l
  induction l using dedup.induct with
  | case1 => intro y t h; cases h
  | case2 x =>
    intro y t h
    injection h with h1 h2
    subst h1
    exact ⟨[], rfl⟩
  | case3 z rest ih =>
    intro y t h
    injection h with h1 h2
    subst h1
    obtain ⟨u, hu⟩ := ih z rest rfl
    refine ⟨u, ?_⟩
    rw [dedup, if_pos rfl, hu]
  | case4 x z rest hne ih =>
    intro y t h
    injection h with h1 h2
    subst h1
    rw [dedup, if_neg hne]
    exact ⟨dedup (z :: rest), rfl⟩

theorem dedup_chain' : ∀ l : List Int, (dedup l).Chain' (· ≠ ·) := by
  intro l
  induction l using dedup.induct with
  | case1 => simp [dedup]
  | case2 x => exact List.chain'_singleton x
  | case3 y rest ih => rw [dedup, if_pos rfl]; exact ih
  | case4 x y rest hne ih =>
    rw [dedup, if_neg hne]
    obtain ⟨u, hu⟩ := dedup_head (y :: rest) y rest rfl
    rw [hu]
    rw [hu] at ih
    exact List.chain'_cons.mpr ⟨hne, ih⟩

/-- A list with no two adjacent equal entries passes through `dedup`
unchanged: in particular non-adjacent duplicates are never removed. -/
theorem dedup_eq_self_of_chain' : ∀ l : List Int, l.Chain' (· ≠ ·) → dedup l = l := by
  intro l
  induction l using dedup.induct with
  | case1 => intro _; rfl
  | case2 x => intro _; rfl
  | case3 y rest ih =>
    intro h
    exact absurd rfl (List.chain'_cons.mp h).1
  | case4 x y rest hne ih =>
    intro h
    rw [dedup, if_neg hne, ih (List.chain'_cons.mp h).2]

/-! ### `find_preferred`- and `attempt`-level helpers -/

theorem find_preferred_map_number (av ns : List Int) :
    find_preferred av (ns.map Value.Number) =
      some (dedup (ns.flatMap (fun p => (selectOne av p).getD []))) := by
  unfold find_preferred
  rw [if_neg (by simp), go_map_number]
  rfl

/-- The function `find_preferred` never panics and never invents values. -/
theorem find_preferred_spec (av : List Int) (pf : List Value) :
    ∃ r, find_preferred av pf = some r ∧ ∀ x ∈ r, x ∈ av := by
  unfold find_preferred
  split
  · exact ⟨av, rfl, fun x hx => hx⟩
  · next h =>
    obtain ⟨ns, hns, hgo⟩ := go_some_of_no_any av pf h
    refine ⟨_, by rw [hgo]; rfl, ?_⟩
    intro x hx
    exact go_mem av pf _ hgo x ((dedup_sublist _).subset hx)

/-- The function `attempt` never panics and never invents values. -/
theorem attempt_spec (av : List Int) (al pf : List Value) :
    ∃ r, attempt av al pf = some r ∧ ∀ x ∈ r, x ∈ av := by
  obtain ⟨m, hm, hsub⟩ := filter_allowed_spec av al
  obtain ⟨r, hr, hmem⟩ := find_preferred_spec m pf
  refine ⟨r, ?_, fun x hx => hsub.subset (hmem x hx)⟩
  unfold attempt
  rw [hm, Option.some_bind]
  exact hr

/-! ### Fuel bounds for the two loops -/

theorem mergeWalkFuel_eq : ∀ (fuel : Nat) (a : List Int) (al : List Value),
    a.length + al.length < fuel → mergeWalkFuel fuel a al = mergeWalk a al := by
  intro fuel
  induction fuel with
  | zero => intro a al h; omega
  | succ n ih =>
    intro a al h
    match a, al with
    | a, [] => cases a <;> simp [mergeWalkFuel, mergeWalk]
    | [], v :: vs => simp [mergeWalkFuel, mergeWalk]
    | a :: as, v :: vs =>
      have e1 : mergeWalkFuel n (a :: as) vs = mergeWalk (a :: as) vs :=
        ih (a :: as) vs (by simp at h ⊢; omega)
      have e2 : mergeWalkFuel n as (v :: vs) = mergeWalk as (v :: vs) :=
        ih as (v :: vs) (by simp at h ⊢; omega)
      have e3 : mergeWalkFuel n as vs = mergeWalk as vs :=
        ih as vs (by simp at h ⊢; omega)
      simp only [mergeWalkFuel, mergeWalk, e1, e2, e3]

theorem findPreferredFuel_eq : ∀ (fuel : Nat) (av : List Int) (pf : List Value),
    pf.length < fuel → findPreferredFuel fuel av pf = find_preferred_go av pf := by
  intro fuel
  induction fuel with
  | zero => intro av pf h; omega
  | succ n ih =>
    intro av pf h
    match pf with
    | [] => rfl
    | p :: ps =>
      have e : findPreferredFuel n av ps = find_preferred_go av ps :=
        ih av ps (by simp at h ⊢; omega)
      simp only [findPreferredFuel, find_preferred_go, e]

/-! ### The claims -/

/-- C1: for sorted `available` and sorted wildcard-free `preferred`, the
accumulation loop of `find_preferred` (before the duplicate collapse)
contributes per preferred entry, in sequence order, exactly the smallest
available value `≥ p` when one exists, else the largest available value when
`available` is non-empty, else nothing. -/
theorem claim_C1 (available ns : List Int)
    (hav : available.Pairwise (· ≤ ·)) (_hns : ns.Pairwise (· ≤ ·)) :
    ∃ f : Int → List Int,
      find_preferred_go available (ns.map Value.Number) = some (ns.flatMap f) ∧
      ∀ p, SelectsNearest available p (f p) := by
  refine ⟨fun p => (selectOne available p).getD [], go_map_number available ns, ?_⟩
  intro p
  obtain ⟨c, hc, hsel⟩ := selectOne_spec available p hav
  simpa [hc] using hsel

/-- Witness for C1 at `available = [240, 360, 720]`, `preferred = [1080]`. -/
theorem claim_C1_witness :
    ∃ f : Int → List Int,
      find_preferred_go [240, 360, 720] ([1080].map Value.Number) =
        some (([1080] : List Int).flatMap f) ∧
      ∀ p, SelectsNearest [240, 360, 720] p (f p) :=
  claim_C1 [240, 360, 720] [1080] (by decide) (by decide)

/-- C2 as stated is false: in `available = [1, 1]`, the value `1` occurs
`k = 2` times and is in the allowed set `{1}`, yet the output `[1]` contains
it only once. -/
theorem claim_C2_counterexample :
    filter_allowed [1, 1] [Value.Number 1] = some [1] ∧
    List.count 1 [1, 1] = 2 ∧ ¬ List.count 1 [1] = 2 := by
  refine ⟨?_, by decide, by decide⟩
  unfold filter_allowed
  rw [if_neg (by decide),
    show ([Value.Number 1] : List Value) = ([1] : List Int).map Value.Number from rfl,
    mergeWalk_map_number]
  norm_num [mergeInts]

/-- C2 amended: for sorted `available` and sorted wildcard-free `allowed`,
`filter_allowed` returns the sorted intersection in which a value occurring
`k` times in `available` and `j` times among `allowed`'s numbers occurs
`min k j` times. -/
theorem claim_C2 (available ns : List Int)
    (hav : available.Pairwise (· ≤ ·)) (hns : ns.Pairwise (· ≤ ·)) :
    ∃ r, filter_allowed available (ns.map Value.Number) = some r ∧
      r.Pairwise (· ≤ ·) ∧
      ∀ v : Int, r.count v = min (available.count v) (ns.count v) := by
  refine ⟨mergeInts available ns, ?_, ?_, mergeInts_count available ns hav hns⟩
  · unfold filter_allowed
    rw [if_neg (by simp), mergeWalk_map_number]
  · exact List.Pairwise.sublist (mergeInts_sublist available ns) hav

/-- Witness for C2 (amended) at `available = [240, 360, 720]`,
`allowed = [360, 720]`. -/
theorem claim_C2_witness :
    ∃ r, filter_allowed [240, 360, 720] (([360, 720] : List Int).map Value.Number) =
        some r ∧
      r.Pairwise (· ≤ ·) ∧
      ∀ v : Int, r.count v =
        min (List.count v [240, 360, 720]) (List.count v [360, 720]) :=
  claim_C2 [240, 360, 720] [360, 720] (by decide) (by decide)

/-- C3: wildcard absorption, for arbitrary (unsorted) sequences. -/
theorem claim_C3 (available : List Int) (allowed preferred : List Value) :
    (Value.Any ∈ allowed → filter_allowed available allowed = some available) ∧
    (Value.Any ∈ preferred → find_preferred available preferred = some available) := by
  constructor
  · intro h
    unfold filter_allowed
    rw [if_pos h]
  · intro h
    unfold find_preferred
    rw [if_pos h]

/-- Witness for C3 with unsorted `available` and mid-sequence wildcards. -/
theorem claim_C3_witness :
    filter_allowed [3, 1, 2] [Value.Number 9, Value.Any] = some [3, 1, 2] ∧
    find_preferred [3, 1, 2] [Value.Any, Value.Number 5] = some [3, 1, 2] :=
  ⟨(claim_C3 [3, 1, 2] [Value.Number 9, Value.Any] [Value.Any, Value.Number 5]).1
      (by decide),
   (claim_C3 [3, 1, 2] [Value.Number 9, Value.Any] [Value.Any, Value.Number 5]).2
      (by decide)⟩

/-- C4: on every input — sorted or not — no panic is reachable: the wildcard
guard always precedes extraction and the selection index is always in
bounds, so all three functions return `some`. -/
theorem claim_C4 (available : List Int) (allowed preferred : List Value) :
    (filter_allowed available allowed).isSome = true ∧
    (find_preferred available preferred).isSome = true ∧
    (attempt available allowed preferred).isSome = true := by
  obtain ⟨m, hm, _⟩ := filter_allowed_spec available allowed
  obtain ⟨r, hr, _⟩ := find_preferred_spec available preferred
  obtain ⟨t, ht, _⟩ := attempt_spec available allowed preferred
  rw [hm, hr, ht]
  exact ⟨rfl, rfl, rfl⟩

/-- C5: without a wildcard, `find_preferred` is the accumulation followed by
a collapse of immediately-adjacent duplicates only: the collapsed result is a
sublist of the accumulation with no two adjacent entries equal, and any list
already free of adjacent duplicates — non-adjacent duplicates included —
passes through the collapse unchanged. -/
theorem claim_C5 (available : List Int) (preferred : List Value)
    (h : Value.Any ∉ preferred) :
    ∃ acc, find_preferred_go available preferred = some acc ∧
      find_preferred available preferred = some (dedup acc) ∧
      (dedup acc).Sublist acc ∧
      (dedup acc).Chain' (· ≠ ·) ∧
      ∀ l : List Int, l.Chain' (· ≠ ·) → dedup l = l := by
  obtain ⟨ns, hns, hgo⟩ := go_some_of_no_any available preferred h
  refine ⟨_, hgo, ?_, dedup_sublist _, dedup_chain' _, dedup_eq_self_of_chain'⟩
  unfold find_preferred
  rw [if_neg h, hgo]
  rfl

/-- Witness for C5 at `available = [240, 360]`, `preferred = [720, 1080]`
(both prefer the fallback `360`, so the accumulation holds an adjacent
duplicate). -/
theorem claim_C5_witness :
    ∃ acc, find_preferred_go [240, 360] [Value.Number 720, Value.Number 1080] =
        some acc ∧
      find_preferred [240, 360] [Value.Number 720, Value.Number 1080] =
        some (dedup acc) ∧
      (dedup acc).Sublist acc ∧
      (dedup acc).Chain' (· ≠ ·) ∧
      ∀ l : List Int, l.Chain' (· ≠ ·) → dedup l = l :=
  claim_C5 [240, 360] [Value.Number 720, Value.Number 1080] (by decide)

/-- C6: for sorted `available` and sorted wildcard-free `preferred`, the
result of `find_preferred` is nondecreasing. -/
theorem claim_C6 (available ns : List Int)
    (hav : available.Pairwise (· ≤ ·)) (hns : ns.Pairwise (· ≤ ·)) :
    ∃ r, find_preferred available (ns.map Value.Number) = some r ∧
      r.Pairwise (· ≤ ·) := by
  have hsel : ∀ p : Int, selectOne available p =
      some ((selectOne available p).getD []) ∧
      SelectsNearest available p ((selectOne available p).getD []) := by
    intro p
    obtain ⟨c, hc, hs⟩ := selectOne_spec available p hav
    rw [hc]
    exact ⟨rfl, hs⟩
  have hacc : (ns.flatMap (fun p => (selectOne available p).getD [])).Pairwise
      (· ≤ ·) := by
    rw [List.pairwise_flatMap]
    constructor
    · intro a _
      rcases (hsel a).2 with ⟨c, hc, _⟩ | ⟨_, _, c, hc, _⟩ | ⟨_, hc⟩ <;>
        simp [hc]
    · exact hns.imp (fun hab => selectsNearest_mono (hsel _).2 (hsel _).2 hab)
  exact ⟨_, find_preferred_map_number available ns,
    List.Pairwise.sublist (dedup_sublist _) hacc⟩

/-- Witness for C6 at `available = [240, 360, 720]`, `preferred = [360, 1080]`. -/
theorem claim_C6_witness :
    ∃ r, find_preferred [240, 360, 720] (([360, 1080] : List Int).map Value.Number) =
        some r ∧ r.Pairwise (· ≤ ·) :=
  claim_C6 [240, 360, 720] [360, 1080] (by decide) (by decide)

/-- C7: for arbitrary inputs, `filter_allowed` returns a sublist of
`available` — it never introduces values. -/
theorem claim_C7 (available : List Int) (allowed : List Value) :
    ∃ r, filter_allowed available allowed = some r ∧ List.Sublist r available :=
  filter_allowed_spec available allowed

/-- C8: with empty `available`, `attempt` returns the empty sequence whatever
`allowed` and `preferred` contain. -/
theorem claim_C8 (allowed preferred : List Value) :
    attempt [] allowed preferred = some [] := by
  have h1 : filter_allowed [] allowed = some [] := by
    unfold filter_allowed
    split
    · rfl
    · next h =>
      obtain ⟨ns, rfl, hm⟩ := mergeWalk_no_any [] _ h
      rw [hm]
      cases ns <;> rw [mergeInts]
  have h2 : find_preferred [] preferred = some [] := by
    unfold find_preferred
    split
    · rfl
    · next h =>
      obtain ⟨ns, hns, hgo⟩ := go_some_of_no_any [] preferred h
      rw [hgo]
      have hf : ns.flatMap (fun p => (selectOne ([] : List Int) p).getD []) = [] := by
        induction ns with
        | nil => rfl
        | cons n t ih => simp [selectOne, ih]
      rw [hf]
      rfl
  unfold attempt
  rw [h1, Option.some_bind, h2]

/-- C9: both loops are bounded: the merge walk terminates within
`|available| + |allowed|` iterations (each iteration consumes an element of
one of the two sequences) and the accumulation loop within `|preferred|`
iterations. -/
theorem claim_C9 (a : List Int) (al pf : List Value) (fuel₁ fuel₂ : Nat)
    (h₁ : a.length + al.length < fuel₁) (h₂ : pf.length < fuel₂) :
    mergeWalkFuel fuel₁ a al = mergeWalk a al ∧
    findPreferredFuel fuel₂ a pf = find_preferred_go a pf :=
  ⟨mergeWalkFuel_eq fuel₁ a al h₁, findPreferredFuel_eq fuel₂ a pf h₂⟩

/-- Witness for C9 at concrete inputs with exactly sufficient fuel. -/
theorem claim_C9_witness :
    mergeWalkFuel 5 [240, 360, 720] [Value.Number 360] =
      mergeWalk [240, 360, 720] [Value.Number 360] ∧
    findPreferredFuel 2 [240, 360, 720] [Value.Number 1080] =
      find_preferred_go [240, 360, 720] [Value.Number 1080] :=
  claim_C9 [240, 360, 720] [Value.Number 360] [Value.Number 1080] 5 2
    (by decide) (by decide)

/-- C10: on arbitrary inputs, every element of `attempt`'s result is an
element of the input `available`. -/
theorem claim_C10 (available : List Int) (allowed preferred : List Value) :
    ∃ r, attempt available allowed preferred = some r ∧ ∀ x ∈ r, x ∈ available :=
  attempt_spec available allowed preferred
